import Mathlib

/-!
Verification development for the AugustaIncentives repository.

The Python sources are shallowly embedded: each relevant function of
`correspondence_finder.py` and `chatbot.py` is translated into an executable
Lean definition, with the external collaborators (the PostgreSQL store and the
OpenAI completion service) passed in as function-valued oracles.  Strings are
modelled by Lean `String` / `List Char`; Python `str.lower`, `str.split`,
`str.strip` and the `re` whitespace class are modelled on ASCII plus the
Latin-1 letters that occur in the Portuguese stop-word list.
-/

/-- Whitespace class used by Python's `str.split()` / `str.strip()` and by
the regex class in the chatbot's fence scanner (ASCII part). -/
def pyIsSpace (c : Char) : Bool :=
  c = ' ' || c = '\t' || c = '\n' || c = '\r' || c = '\x0b' || c = '\x0c'

/-- Lower-casing of one character, covering ASCII `A`-`Z` and the Latin-1
uppercase letters `À`-`Þ` (excluding `×`), matching Python `str.lower` on the
alphabets used by the repository. -/
def pyCharLower (c : Char) : Char :=
  if 'A' ≤ c ∧ c ≤ 'Z' then Char.ofNat (c.toNat + 32)
  else if 0xC0 ≤ c.toNat ∧ c.toNat ≤ 0xDE ∧ c.toNat ≠ 0xD7 then Char.ofNat (c.toNat + 32)
  else c

/-- Python `str.lower`. -/
def pyLower (s : String) : String :=
  (s.data.map pyCharLower).asString

/-- Helper for `pySplit`: splits a character list on runs of whitespace,
dropping empty pieces, like Python `str.split()` with no argument. -/
def splitWSAux : List Char → List Char → List (List Char)
  | [], cur => if cur.isEmpty then [] else [cur.reverse]
  | c :: rest, cur =>
    if pyIsSpace c then
      if cur.isEmpty then splitWSAux rest [] else cur.reverse :: splitWSAux rest []
    else
      splitWSAux rest (c :: cur)

/-- Python `str.split()` with no argument: split on whitespace runs,
no empty words. -/
def pySplit (s : String) : List String :=
  (splitWSAux s.data []).map List.asString

/-- The fixed stop-word set of `search_companies_by_keywords`
(src/correspondence_finder.py lines 118-127), transcribed verbatim. -/
def stop_words : List String :=
  ["de", "da", "do", "das", "dos", "para", "com", "em", "na", "no", "nas", "nos",
   "por", "sobre", "entre", "até", "desde", "durante", "após", "antes", "depois",
   "the", "a", "an", "and", "or", "but", "in", "on", "at", "to", "for", "of", "with",
   "by", "from", "up", "about", "into", "through", "during", "before", "after",
   "e", "ou", "mas", "se", "que", "como", "quando", "onde", "porque", "então",
   "é", "são", "foi", "será", "tem", "têm", "ter", "terá", "pode", "podem",
   "poder", "poderá", "deve", "devem", "dever", "deverá", "vai", "vão", "ir",
   "vir", "virá", "fazer", "fez", "fará", "dizer", "disse", "dirá"]

/-- The `individual_words` list of `search_companies_by_keywords`: every
keyword is split on whitespace and the words are concatenated in order. -/
def individualWords (keywords : List String) : List String :=
  keywords.flatMap pySplit

/-- The filtering loop of `search_companies_by_keywords` (lines 129-133):
keep a word iff its lower-casing was not seen before, is not a stop word, and
the word is longer than 2 characters; `seen` collects the lower-casings of
the kept words. -/
def uniqueWordsAux : List String → List String → List String
  | [], _ => []
  | w :: rest, seen =>
    let wl := pyLower w
    if !seen.contains wl && !stop_words.contains wl && decide (2 < w.length) then
      w :: uniqueWordsAux rest (wl :: seen)
    else
      uniqueWordsAux rest seen

/-- The `unique_words` value of `search_companies_by_keywords`. -/
def uniqueWords (keywords : List String) : List String :=
  uniqueWordsAux (individualWords keywords) []

/-- The `search_terms` string of `search_companies_by_keywords`
(lines 135-139): the disjunctive full-text query submitted to the store; the
raw keyword phrases are used when fewer than 3 filtered words survive. -/
def searchTerms (keywords : List String) : String :=
  if (uniqueWords keywords).length < 3 then
    String.intercalate " | " keywords
  else
    String.intercalate " | " (uniqueWords keywords)

/-! ### Chatbot data model and operations (src/chatbot.py) -/

/-- Rows returned by the store are modelled by their textual rendering
(the chatbot only ever prints `dict(row)`). -/
abbrev Row : Type := String

/-- Result record appended by `_execute_sql_queries` for one query.  On
failure the Python dict carries no `row_count` key; the formatter never reads
it there, so it is modelled as 0. -/
structure QueryResult where
  query : String
  success : Bool
  results : List Row
  rowCount : Nat
  error : String
deriving DecidableEq

/-- The body of `_execute_sql_queries` for a single query, given the store's
`execute_query` as the oracle `db : query ↦ (success, results, error)`. -/
def mkQueryResult (db : String → Bool × List Row × String) (q : String) : QueryResult :=
  let r := db q
  if r.1 then
    { query := q, success := true, results := r.2.1, rowCount := r.2.1.length, error := "" }
  else
    { query := q, success := false, results := [], rowCount := 0, error := r.2.2 }

/-- Embedding of `_execute_sql_queries` (src/chatbot.py lines 221-246): the
loop appends one result record per query, in order. -/
def executeSqlQueries (db : String → Bool × List Row × String) (queries : List String) :
    List QueryResult :=
  queries.foldl (fun acc q => acc ++ [mkQueryResult db q]) []

/-- Python `sep.join(pieces)`. -/
def pyJoin (sep : String) : List String → String
  | [] => ""
  | [a] => a
  | a :: b :: rest => a ++ sep ++ pyJoin sep (b :: rest)

/-- The preview loop of `_format_query_results`: one line per row among the
first 5 rows. -/
def previewLines (rows : List Row) : List String :=
  (rows.take 5).enum.map (fun p => "Row " ++ toString (p.1 + 1) ++ ": " ++ p.2)

/-- Lines appended by one iteration of the loop in `_format_query_results`
(src/chatbot.py lines 255-270). -/
def formatOne (r : QueryResult) : List String :=
  if r.success then
    if r.results.isEmpty then
      ["Query executed successfully (no rows returned)"]
    else
      ("Query executed successfully (" ++ toString r.rowCount ++ " rows):")
        :: previewLines r.results
        ++ (if 5 < r.rowCount then ["... and " ++ toString (r.rowCount - 5) ++ " more rows"]
            else [])
  else
    ["Query failed: " ++ r.error]

/-- Embedding of `_format_query_results` (src/chatbot.py lines 248-272). -/
def formatQueryResults (rs : List QueryResult) : String :=
  if rs.isEmpty then ""
  else pyJoin "\n" (rs.foldl (fun acc r => acc ++ formatOne r) [])

/-- Concrete store oracle for the C5 witness: fails exactly on the query
"BAD". -/
def sampleDb : String → Bool × List Row × String :=
  fun q => if q = "BAD" then (false, [], "syntax error at or near BAD")
           else (true, ["row"], "")

/-- Sample successful 7-row result for the C6 witness. -/
def sampleBigResult : QueryResult :=
  { query := "q", success := true, results := ["a", "b", "c", "d", "e", "f", "g"],
    rowCount := 7, error := "" }


/-! ### Chatbot: action extraction (the regex scanner of `_extract_sql_queries`)
and the iterative-query orchestrator. -/

/-- Python `str.strip()` on a character list. -/
def stripChars (l : List Char) : List Char :=
  ((l.dropWhile pyIsSpace).reverse.dropWhile pyIsSpace).reverse

/-- Drop the leading whitespace run (the greedy regex class). -/
def dropWS (l : List Char) : List Char :=
  l.dropWhile pyIsSpace

/-- Case-insensitive pattern match at the head of a list (re.IGNORECASE):
returns the rest after the pattern. -/
def stripCI : List Char → List Char → Option (List Char)
  | [], s => some s
  | _ :: _, [] => none
  | p :: ps, c :: cs =>
    if pyCharLower p = pyCharLower c then stripCI ps cs else none

/-- The opening marker of an action fence. -/
def fenceMarker : List Char := ("```sql").data

/-- The closing marker of an action fence. -/
def closeMarker : List Char := ("```").data

/-- Implements the lazy group of the fence pattern: starting right after the
opening marker's whitespace, consume characters into the group until the
first position from which an (optional) whitespace run is followed by the
closing marker; returns the group and the text after the closing marker. -/
def findClose : List Char → Option (List Char × List Char)
  | [] => none
  | c :: rest =>
    match stripCI closeMarker (dropWS (c :: rest)) with
    | some after => some ([], after)
    | none => (findClose rest).map (fun p => (c :: p.1, p.2))

/-- Attempt to match one complete action fence at the current position. -/
def tryFence (l : List Char) : Option (List Char × List Char) :=
  match stripCI fenceMarker l with
  | none => none
  | some rest => findClose (dropWS rest)

/-- Left-to-right scan of `re.findall` for the fence pattern: try a match at
every position, and on a match continue after the consumed text.  Structural
on an explicit fuel (the scan consumes at least one character per step, so
fuel = length of the text suffices). -/
def extractAux : Nat → List Char → List (List Char)
  | 0, _ => []
  | _ + 1, [] => []
  | fuel + 1, c :: rest =>
    match tryFence (c :: rest) with
    | some (content, after) => content :: extractAux fuel after
    | none => extractAux fuel rest

/-- Embedding of `_extract_sql_queries` (src/chatbot.py lines 215-219):
find all fenced action blocks, strip each, and keep the non-empty ones. -/
def extractSqlQueries (text : String) : List String :=
  (((extractAux text.data.length text.data).map stripChars).filter
    (fun c => !c.isEmpty)).map List.asString

/-- One role-tagged conversation turn. -/
structure Msg where
  role : String
  content : String
deriving DecidableEq

/-- Python `history[-10:]`: the at-most-`n` most recent elements. -/
def lastN (n : Nat) (l : List α) : List α :=
  l.drop (l.length - n)

/-- The outbound message sequence assembled by `_get_ai_response`
(src/chatbot.py lines 280-288): the system turn, the current context as a
user turn, then the 10 most recent retained history turns. -/
def getAIMessages (sysP : String) (hist : List Msg) (userMsg : String) : List Msg :=
  [{ role := "system", content := sysP }, { role := "user", content := userMsg }]
    ++ lastN 10 hist

/-- Embedding of `_get_ai_response`: the completion service is the oracle
`model`, applied to the outbound message sequence. -/
def getAIResponse (model : List Msg → String) (sysP : String) (hist : List Msg)
    (userMsg : String) : String :=
  model (getAIMessages sysP hist userMsg)

/-- The decision turn built at the end of one loop iteration
(src/chatbot.py lines 347-356); `decisionFmt` is the externally loaded
decision template's `.format`, given (query_output, original_user_message,
iteration_count, max_iterations). -/
def decisionMessage (decisionFmt : String → String → Nat → Nat → String)
    (out origMsg : String) (iterCount maxIter : Nat) : String :=
  "The following SQL queries were executed and returned these results:\n\n"
    ++ out ++ "\n\n" ++ decisionFmt out origMsg iterCount maxIter

/-- Embedding of the while loop of `_process_with_iterative_queries`
(src/chatbot.py lines 314-375), structural on the remaining iteration budget
(`fuel = max_iterations - iteration_count`, so the Python guard
`iteration_count < max_iterations` is exactly `fuel > 0`).  Returns the final
response, the retained conversation history, and the number of ModelClient
calls made.  `finalFmt` is the final-iteration template's `.format`, given
(max_iterations, original_user_message). -/
def processIter (model : List Msg → String) (db : String → Bool × List Row × String)
    (sysP : String) (decisionFmt : String → String → Nat → Nat → String)
    (finalFmt : Nat → String → String) (origMsg : String) (maxIter : Nat) :
    Nat → Nat → String → List Msg → String × List Msg × Nat
  | 0, _, _, hist =>
    let fm := finalFmt maxIter origMsg
    let fr := getAIResponse model sysP hist fm
    (fr, hist ++ [{ role := "user", content := fm }, { role := "assistant", content := fr }], 1)
  | fuel + 1, iterCount, ctx, hist =>
    let ai := getAIResponse model sysP hist ctx
    let hist1 := hist ++ [{ role := "assistant", content := ai }]
    let qs := extractSqlQueries ai
    if qs.isEmpty then (ai, hist1, 1)
    else
      let out := formatQueryResults (executeSqlQueries db qs)
      if out = "" then (ai, hist1, 1)
      else
        let dm := decisionMessage decisionFmt out origMsg (iterCount + 1) maxIter
        let hist2 := hist1 ++ [{ role := "user", content := dm }]
        let r := processIter model db sysP decisionFmt finalFmt origMsg maxIter
          fuel (iterCount + 1) dm hist2
        (r.1, r.2.1, r.2.2 + 1)

/-- Embedding of `process_message` (src/chatbot.py lines 304-312): append the
user turn to the retained history, then run the iterative loop with the
default iteration cap. -/
def processMessage (model : List Msg → String) (db : String → Bool × List Row × String)
    (sysP : String) (decisionFmt : String → String → Nat → Nat → String)
    (finalFmt : Nat → String → String) (maxIter : Nat) (hist : List Msg)
    (userMsg : String) : String × List Msg × Nat :=
  processIter model db sysP decisionFmt finalFmt userMsg maxIter maxIter 0 userMsg
    (hist ++ [{ role := "user", content := userMsg }])


/-- Concrete completion oracle for the loop witnesses: always answers with
one fenced action. -/
def sampleModel : List Msg → String := fun _ => "```sql\nSELECT 1;\n```"

/-- Concrete decision template for the loop witnesses. -/
def sampleDecisionFmt : String → String → Nat → Nat → String := fun _ _ _ _ => "decide next"

/-- Concrete final-iteration template for the loop witnesses. -/
def sampleFinalFmt : Nat → String → String := fun _ _ => "final prompt"

/-- A retained conversation with 12 prior turns, for the C3 witness. -/
def sampleHist : List Msg :=
  (List.range 12).map (fun i => { role := "user", content := toString i })


/-! ### Correspondence finder: candidate search, batch pipeline and artifacts
(src/correspondence_finder.py). -/

/-- One company row as returned by the full-text search query of
`search_companies_by_keywords` (timestamps omitted; the relevance score
computed by ts_rank is modelled as an integer, only its ordering matters to
the control logic). -/
structure Company where
  id : Int
  company_name : String
  cae_primary_label : String
  trade_description_native : String
  website : String
  relevance_score : Int
deriving DecidableEq

/-- Descending order on relevance scores (the sort key
`key=lambda x: x.relevance_score, reverse=True`). -/
def scoreGe (a b : Company) : Prop := b.relevance_score ≤ a.relevance_score

instance : DecidableRel scoreGe :=
  fun a b => inferInstanceAs (Decidable (b.relevance_score ≤ a.relevance_score))

instance : IsTotal Company scoreGe :=
  ⟨fun a b => le_total b.relevance_score a.relevance_score⟩

instance : IsTrans Company scoreGe :=
  ⟨fun _ _ _ h1 h2 => le_trans h2 h1⟩

/-- One step of the fallback merge loop (lines 179-182): keep, per company
id, the row with the strictly greatest relevance score seen so far; a Python
dict assignment keeps the entry's insertion position. -/
def mergeStep (m : List (Int × Company)) (c : Company) : List (Int × Company) :=
  match m.lookup c.id with
  | none => m ++ [(c.id, c)]
  | some old =>
    if old.relevance_score < c.relevance_score then
      m.map (fun p => if p.1 = c.id then (c.id, c) else p)
    else m

/-- The `all_companies` dict after the whole per-token fallback loop
(lines 174-182): every row of every per-token query folded through
`mergeStep`. -/
def mergeAll (dbq : String → Nat → List Company) (words : List String)
    (limit : Nat) : List (Int × Company) :=
  words.foldl (fun m w => (dbq w limit).foldl mergeStep m) []

/-- Embedding of `search_companies_by_keywords` (lines 88-195): the store is
the oracle `dbq : (query, limit) ↦ ordered rows`.  The primary disjunctive
query runs first; if it returns fewer than `limit / 2` rows, each filtered
token is queried separately, the rows are merged keeping the maximum score
per company id, re-sorted descending by score (Python's stable sort is
`List.insertionSort`), and truncated to the limit. -/
def searchCompaniesByKeywords (dbq : String → Nat → List Company)
    (keywords : List String) (limit : Nat) : List Company :=
  if keywords.isEmpty then []
  else
    let companies := dbq (searchTerms keywords) limit
    if companies.length < limit / 2 then
      (((mergeAll dbq (uniqueWords keywords) limit).map Prod.snd).insertionSort
        scoreGe).take limit
    else companies

/-- One incentive record. -/
structure Incentive where
  incentive_id : Int
  title : String
  description : String
  ai_description : String
deriving DecidableEq

/-- Embedding of `extract_keywords_from_incentive` (lines 201-244): the
ModelClient call plus JSON parse is the oracle `kwOracle`; `none` models an
unparsable response, which the `except` branch turns into `[]` instead of an
exception. -/
def extractKeywordsFromIncentive (kwOracle : Incentive → Option (List String))
    (inc : Incentive) : List String :=
  (kwOracle inc).getD []

/-- Embedding of `rank_companies_for_incentive` (lines 266-335): the
ModelClient call plus JSON parse is the oracle `rankOracle`; `none` models an
unparsable response, turned into `[]` by the `except` branch. -/
def rankCompaniesForIncentive (rankOracle : Incentive → List Company → Option (List Int))
    (inc : Incentive) (companies : List Company) : List Int :=
  (rankOracle inc companies).getD []

/-- The per-record result stored by `process_all_incentives` (timing map
omitted). -/
structure IncentiveResult where
  incentive : Incentive
  keywords : List String
  top_25_companies : List Company
  top_5_company_ids : List Int
  error : Option String
deriving DecidableEq

/-- The body of the per-incentive loop of `process_all_incentives`
(lines 362-445): keyword extraction, then candidate search, then ranking,
each stage short-circuiting to an error-tagged result with empty downstream
fields. -/
def processOneIncentive (kwOracle : Incentive → Option (List String))
    (dbq : String → Nat → List Company)
    (rankOracle : Incentive → List Company → Option (List Int))
    (inc : Incentive) : IncentiveResult :=
  let keywords := extractKeywordsFromIncentive kwOracle inc
  if keywords.isEmpty then
    { incentive := inc, keywords := [], top_25_companies := [], top_5_company_ids := [],
      error := some "No keywords extracted" }
  else
    let top25 := searchCompaniesByKeywords dbq keywords 25
    if top25.isEmpty then
      { incentive := inc, keywords := keywords, top_25_companies := [],
        top_5_company_ids := [], error := some "No companies found" }
    else
      { incentive := inc, keywords := keywords, top_25_companies := top25,
        top_5_company_ids := rankCompaniesForIncentive rankOracle inc top25,
        error := none }

/-- Embedding of `process_all_incentives`: the results dict keyed by
incentive_id in insertion order. -/
def processAllIncentives (kwOracle : Incentive → Option (List String))
    (dbq : String → Nat → List Company)
    (rankOracle : Incentive → List Company → Option (List Int))
    (incentives : List Incentive) : List (Int × IncentiveResult) :=
  incentives.foldl
    (fun acc inc => acc ++ [(inc.incentive_id, processOneIncentive kwOracle dbq rankOracle inc)]) []

/-- An entry of the reduced artifact: only the company's id and display
name. -/
structure SimpleCompany where
  id : Int
  name : String
deriving DecidableEq

/-- One record of the reduced artifact. -/
structure SimplifiedResult where
  incentive : Incentive
  keywords : List String
  companies : List SimpleCompany
deriving DecidableEq

/-- The `company_lookup` dict comprehension of `create_simplified_results`
(line 474): keyed by company id, a later duplicate id overwrites in place. -/
def companyLookup (companies : List Company) : List (Int × Company) :=
  companies.foldl
    (fun m c =>
      if (m.lookup c.id).isSome then m.map (fun p => if p.1 = c.id then (c.id, c) else p)
      else m ++ [(c.id, c)]) []

/-- The ranked-entity loop of `create_simplified_results` (lines 476-482):
keep, in ranked order, the ids found among the candidates, carrying id and
name only. -/
def simplifiedCompanies (data : IncentiveResult) : List SimpleCompany :=
  data.top_5_company_ids.filterMap
    (fun cid => ((companyLookup data.top_25_companies).lookup cid).map
      (fun c => { id := c.id, name := c.company_name }))

/-- Embedding of `create_simplified_results` (lines 453-490): error-tagged
records are skipped; the others keep the record, the keywords and the reduced
company list. -/
def createSimplifiedResults (results : List (Int × IncentiveResult)) :
    List (Int × SimplifiedResult) :=
  results.foldl
    (fun acc p =>
      if p.2.error.isSome then acc
      else acc ++
        [(p.1, SimplifiedResult.mk p.2.incentive p.2.keywords (simplifiedCompanies p.2))]) []


/-- Sample incentives and oracles for the batch-pipeline witnesses. -/
def sampleIncentive1 : Incentive :=
  { incentive_id := 1, title := "t1", description := "d1", ai_description := "a1" }

/-- Second sample incentive. -/
def sampleIncentive2 : Incentive :=
  { incentive_id := 2, title := "t2", description := "d2", ai_description := "a2" }

/-- Keyword oracle that is unparsable exactly on the first sample incentive. -/
def sampleKwOracle : Incentive → Option (List String) :=
  fun inc => if inc.incentive_id = 1 then none
             else some ["energia", "solar", "transporte"]

/-- A sample company row. -/
def sampleCompany : Company :=
  { id := 10, company_name := "Solar Lda", cae_primary_label := "cae",
    trade_description_native := "desc", website := "w", relevance_score := 3 }

/-- Store oracle returning one company row for every query. -/
def sampleDbq : String → Nat → List Company := fun _ _ => [sampleCompany]

/-- Ranking oracle returning a fixed id list. -/
def sampleRankOracle : Incentive → List Company → Option (List Int) :=
  fun _ _ => some [10, 99]


/-- A second sample company, for the reduced-artifact witness. -/
def sampleCompany11 : Company :=
  { id := 11, company_name := "Onze", cae_primary_label := "",
    trade_description_native := "", website := "", relevance_score := 4 }

/-- A successful full batch entry whose ranked ids contain one id (99) that
is not among the candidates. -/
def sampleFullData : IncentiveResult :=
  { incentive := sampleIncentive2, keywords := ["energia"],
    top_25_companies := [sampleCompany, sampleCompany11],
    top_5_company_ids := [11, 99, 10], error := none }

/-- A one-record full batch artifact for the C9 witness. -/
def sampleResults : List (Int × IncentiveResult) := [(2, sampleFullData)]


/-- All rows returned across the per-token fallback queries, in query
order. -/
def allRows (dbq : String → Nat → List Company) (words : List String)
    (limit : Nat) : List Company :=
  words.flatMap (fun w => dbq w limit)

/-- Sample companies for the C7 witness: id 1 appears twice with different
scores. -/
def companyA3 : Company :=
  { id := 1, company_name := "A", cae_primary_label := "",
    trade_description_native := "", website := "", relevance_score := 3 }

/-- The higher-scored row for id 1. -/
def companyA5 : Company :=
  { id := 1, company_name := "A", cae_primary_label := "",
    trade_description_native := "", website := "", relevance_score := 5 }

/-- A row for id 2. -/
def companyB2 : Company :=
  { id := 2, company_name := "B", cae_primary_label := "",
    trade_description_native := "", website := "", relevance_score := 2 }

/-- Store oracle for the C7 witness: the primary disjunctive query returns
nothing, the per-token queries return overlapping rows. -/
def sampleDbq2 : String → Nat → List Company :=
  fun q _ => if q = "energia" then [companyA3]
             else if q = "solar" then [companyA5, companyB2] else []


/-- The backtick character, obtained from the closing marker. -/
def tickChar : Char := closeMarker.headD ' '

/-- Whether the closing marker occurs anywhere in the text (so a text without
it contains no action fence at all). -/
def hasCloseMarker : List Char → Bool
  | [] => false
  | c :: rest => (stripCI closeMarker (c :: rest)).isSome || hasCloseMarker rest

/-- A character that can never start a fence marker (its case-fold is not the
backtick; only the backtick itself folds to the backtick). -/
def fenceFreeChar (c : Char) : Bool :=
  !(closeMarker.contains (pyCharLower c))

/-- A stretch of text containing no character that could open or close a
fence. -/
def fenceFree (l : List Char) : Bool :=
  l.all fenceFreeChar

/-- A well-formed action payload: non-empty, already trimmed (no leading or
trailing whitespace) and containing no fence character. -/
def goodContent (content : List Char) : Bool :=
  !content.isEmpty && !pyIsSpace (content.headD 'x')
    && !pyIsSpace (content.getLastD 'x') && fenceFree content

/-- A canonical well-formed fenced action block around a payload. -/
def fenceBlock (content : List Char) : List Char :=
  fenceMarker ++ '\n' :: (content ++ '\n' :: closeMarker)

/-- A document assembled from a leading plain segment and a sequence of
(payload, following plain segment) pairs. -/
def assembleDoc : List Char → List (List Char × List Char) → List Char
  | seg, [] => seg
  | seg, (content, seg') :: rest => seg ++ fenceBlock content ++ assembleDoc seg' rest

/-! ## Theorems -/

/-- C1, as stated, is false: on the spec's own example the filtered tokens
are only 2, so the code falls back to the raw keyword phrases and the
submitted query string does contain the stop word "de" as a token. -/
theorem c1_counterexample :
    uniqueWords ["de transporte", "logística"] = ["transporte", "logística"] ∧
    searchTerms ["de transporte", "logística"] = "de transporte | logística" ∧
    "de" ∈ pySplit (searchTerms ["de transporte", "logística"]) ∧
    "de" ∈ stop_words := by
  refine ⟨by decide, by decide, by decide, by decide⟩

/-- C1 (amended): tokens of length ≤ 2 and stop words never appear among the
FILTERED tokens; when at least 3 filtered tokens survive, the submitted
disjunctive query is built from exactly those filtered tokens; when fewer
than 3 survive, the query falls back to the raw keyword phrases (and may
contain stop words, as on the example list ["de transporte", "logística"],
whose filtered tokens are ["transporte", "logística"] but whose query is the
raw "de transporte | logística"). -/
theorem c1_stop_word_filtering (keywords : List String) :
    (∀ w ∈ uniqueWords keywords, 2 < w.length ∧ pyLower w ∉ stop_words) ∧
    (3 ≤ (uniqueWords keywords).length →
      searchTerms keywords = String.intercalate " | " (uniqueWords keywords)) ∧
    ((uniqueWords keywords).length < 3 →
      searchTerms keywords = String.intercalate " | " keywords) := by
  refine ⟨?_, ?_, ?_⟩
  · have main : ∀ (ws seen : List String), ∀ w ∈ uniqueWordsAux ws seen,
        2 < w.length ∧ pyLower w ∉ stop_words := by
      intro ws
      induction ws with
      | nil => intro seen w hw; simp [uniqueWordsAux] at hw
      | cons v rest ih =>
        intro seen w hw
        simp only [uniqueWordsAux] at hw
        by_cases hc : (!seen.contains (pyLower v) && !stop_words.contains (pyLower v)
            && decide (2 < v.length)) = true
        · rw [if_pos hc] at hw
          rcases List.mem_cons.mp hw with h | h
          · subst h
            simp only [Bool.and_eq_true, Bool.not_eq_true', decide_eq_true_eq] at hc
            refine ⟨hc.2, ?_⟩
            simpa using hc.1.2
          · exact ih _ w h
        · rw [if_neg hc] at hw
          exact ih _ w hw
    exact main _ []
  · intro h
    unfold searchTerms
    rw [if_neg (by omega)]
  · intro h
    unfold searchTerms
    rw [if_pos h]

/-- Witness for C1 (amended) at a concrete keyword list with 4 surviving
filtered tokens. -/
theorem c1_stop_word_filtering_witness :
    (∀ w ∈ uniqueWords ["energia solar", "transporte marítimo"],
      2 < w.length ∧ pyLower w ∉ stop_words) ∧
    searchTerms ["energia solar", "transporte marítimo"]
      = "energia | solar | transporte | marítimo" := by
  refine ⟨(c1_stop_word_filtering ["energia solar", "transporte marítimo"]).1, ?_⟩
  have h := (c1_stop_word_filtering ["energia solar", "transporte marítimo"]).2.1
    (by decide)
  rw [h]
  decide

theorem foldl_append_eq_map {α β : Type} (f : α → β) (l : List α) (acc : List β) :
    l.foldl (fun a q => a ++ [f q]) acc = acc ++ l.map f := by
  induction l generalizing acc with
  | nil => simp
  | cons x xs ih => simp [List.foldl_cons, ih]

theorem executeSqlQueries_eq_map (db : String → Bool × List Row × String)
    (qs : List String) : executeSqlQueries db qs = qs.map (mkQueryResult db) := by
  unfold executeSqlQueries
  simpa using foldl_append_eq_map (mkQueryResult db) qs []

theorem formatQueryResults_eq_join (rs : List QueryResult) :
    formatQueryResults rs = if rs.isEmpty then "" else pyJoin "\n" (rs.flatMap formatOne) := by
  unfold formatQueryResults
  have h : ∀ (l : List QueryResult) (acc : List String),
      l.foldl (fun a r => a ++ formatOne r) acc = acc ++ l.flatMap formatOne := by
    intro l
    induction l with
    | nil => simp
    | cons x xs ih => intro acc; simp [List.foldl_cons, ih, List.flatMap_cons]
  rw [h]
  simp

/-- C5: the executor produces exactly one result per request, in order, and a
failure of one request does not abort the batch: each entry depends only on
its own query, and in the 3-query scenario with the middle one failing, the
first and third entries are still present and successful while the middle one
records success=false and the store's error message. -/
theorem c5_executor_isolation (db : String → Bool × List Row × String) (qs : List String) :
    (executeSqlQueries db qs).length = qs.length ∧
    (∀ i : Nat, (executeSqlQueries db qs)[i]? = (qs[i]?).map (mkQueryResult db)) ∧
    (∀ q1 q2 q3, qs = [q1, q2, q3] →
      (db q2).1 = false → (db q1).1 = true → (db q3).1 = true →
      executeSqlQueries db qs =
        [mkQueryResult db q1, mkQueryResult db q2, mkQueryResult db q3] ∧
      (mkQueryResult db q1).success = true ∧
      (mkQueryResult db q3).success = true ∧
      (mkQueryResult db q2).success = false ∧
      (mkQueryResult db q2).error = (db q2).2.2) := by
  rw [executeSqlQueries_eq_map]
  refine ⟨by simp, by intro i; simp, ?_⟩
  intro q1 q2 q3 hq h2 h1 h3
  subst hq
  refine ⟨by simp, ?_, ?_, ?_, ?_⟩
  · simp [mkQueryResult, h1]
  · simp [mkQueryResult, h3]
  · simp [mkQueryResult, h2]
  · simp [mkQueryResult, h2]

/-- Witness for C5 on a concrete 3-query batch whose middle query fails. -/
theorem c5_executor_isolation_witness :
    executeSqlQueries sampleDb ["SELECT 1", "BAD", "SELECT 2"] =
      [mkQueryResult sampleDb "SELECT 1", mkQueryResult sampleDb "BAD",
       mkQueryResult sampleDb "SELECT 2"] ∧
    (mkQueryResult sampleDb "SELECT 1").success = true ∧
    (mkQueryResult sampleDb "SELECT 2").success = true ∧
    (mkQueryResult sampleDb "BAD").success = false ∧
    (mkQueryResult sampleDb "BAD").error = "syntax error at or near BAD" := by
  have h := (c5_executor_isolation sampleDb ["SELECT 1", "BAD", "SELECT 2"]).2.2
    "SELECT 1" "BAD" "SELECT 2" rfl (by decide) (by decide) (by decide)
  exact ⟨h.1, h.2.1, h.2.2.1, h.2.2.2.1, h.2.2.2.2.trans (by decide)⟩

theorem string_ne_of_head_ne {a b : String} (h : a.data.head? ≠ b.data.head?) : a ≠ b :=
  fun e => h (by rw [e])

theorem previewLines_head (rows : List Row) :
    ∀ l ∈ previewLines rows, l.data.head? = some 'R' := by
  intro l hl
  unfold previewLines at hl
  rcases List.mem_map.mp hl with ⟨p, _, hp⟩
  subst hp
  rfl

theorem more_rows_head (n : Nat) :
    ("... and " ++ toString n ++ " more rows").data.head? = some '.' := by
  rfl

/-- C6: for every ordered result list, the context builder joins per-result
blocks in order; a successful row-bearing result contributes a header line
carrying its row_count, at most 5 preview rows, and the "... and N more rows"
line with N = row_count - 5 exactly when row_count > 5; a successful empty
result contributes the "no rows returned" line; a failed result contributes a
line carrying its error text verbatim. -/
theorem c6_context_builder (rs : List QueryResult) (hne : rs ≠ []) :
    formatQueryResults rs = pyJoin "\n" (rs.flatMap formatOne) ∧
    ∀ r ∈ rs,
      (r.success = true → r.results ≠ [] →
        (formatOne r).head? =
          some ("Query executed successfully (" ++ toString r.rowCount ++ " rows):") ∧
        (previewLines r.results).length = min r.results.length 5 ∧
        (5 < r.rowCount →
          formatOne r =
            ("Query executed successfully (" ++ toString r.rowCount ++ " rows):")
              :: previewLines r.results
              ++ ["... and " ++ toString (r.rowCount - 5) ++ " more rows"]) ∧
        (r.rowCount ≤ 5 →
          formatOne r =
            ("Query executed successfully (" ++ toString r.rowCount ++ " rows):")
              :: previewLines r.results)) ∧
      (r.success = true → r.results = [] →
        formatOne r = ["Query executed successfully (no rows returned)"]) ∧
      (r.success = false → formatOne r = ["Query failed: " ++ r.error]) ∧
      (("... and " ++ toString (r.rowCount - 5) ++ " more rows") ∈ formatOne r ↔
        r.success = true ∧ r.results ≠ [] ∧ 5 < r.rowCount) := by
  constructor
  · rw [formatQueryResults_eq_join]
    rw [if_neg (by simpa using hne)]
  intro r _
  have hnotHeader : ∀ n m : Nat,
      ("... and " ++ toString n ++ " more rows")
        ≠ ("Query executed successfully (" ++ toString m ++ " rows):") := by
    intro n m
    apply string_ne_of_head_ne
    rw [more_rows_head]
    intro h
    simp [String.data_append] at h
  have hnotPreview : ∀ n : Nat, ∀ l ∈ previewLines r.results,
      ("... and " ++ toString n ++ " more rows") ≠ l := by
    intro n l hl
    apply string_ne_of_head_ne
    rw [more_rows_head, previewLines_head r.results l hl]
    simp
  refine ⟨?_, ?_, ?_, ?_⟩
  · intro hs hr
    unfold formatOne
    rw [if_pos hs, if_neg (by simpa using hr)]
    refine ⟨rfl, ?_, ?_, ?_⟩
    · unfold previewLines
      simp [Nat.min_comm]
    · intro h5
      rw [if_pos h5]
    · intro h5
      rw [if_neg (by omega)]
      simp
  · intro hs hr
    unfold formatOne
    rw [if_pos hs, if_pos (by simpa using hr)]
  · intro hs
    unfold formatOne
    rw [if_neg (by simp [hs])]
  · constructor
    · intro hmem
      unfold formatOne at hmem
      by_cases hs : r.success = true
      · rw [if_pos hs] at hmem
        by_cases hr : r.results.isEmpty
        · rw [if_pos hr] at hmem
          rcases List.mem_singleton.mp hmem with h
          exact absurd h (by
            apply string_ne_of_head_ne
            rw [more_rows_head]
            intro hh
            simp [String.data_append] at hh)
        · rw [if_neg hr] at hmem
          rcases List.mem_cons.mp hmem with h | h
          · exact absurd h (hnotHeader _ _)
          · rcases List.mem_append.mp h with h | h
            · exact absurd rfl (hnotPreview (r.rowCount - 5) _ h)
            · by_cases h5 : 5 < r.rowCount
              · exact ⟨hs, by simpa using hr, h5⟩
              · rw [if_neg h5] at h
                simp at h
      · rw [if_neg hs] at hmem
        rcases List.mem_singleton.mp hmem with h
        exact absurd h (by
          apply string_ne_of_head_ne
          rw [more_rows_head]
          intro hh
          simp [String.data_append] at hh)
    · rintro ⟨hs, hr, h5⟩
      unfold formatOne
      rw [if_pos hs, if_neg (by simpa using hr), if_pos h5]
      simp

/-- Witness for C6: one successful result with 7 rows (row_count 7), checked
end to end against the concrete formatted block. -/
theorem c6_context_builder_witness :
    formatQueryResults [sampleBigResult] =
      "Query executed successfully (7 rows):\nRow 1: a\nRow 2: b\nRow 3: c\nRow 4: d\nRow 5: e\n... and 2 more rows" ∧
    ("... and 2 more rows" : String) ∈ formatOne sampleBigResult := by
  have h := c6_context_builder [sampleBigResult] (by simp)
  constructor
  · rw [h.1]
    decide
  · have h2 := (h.2 sampleBigResult (by simp)).2.2.2
    exact h2.mpr ⟨rfl, by simp [sampleBigResult], by decide⟩

theorem string_of_length_zero {s : String} (h : s.length = 0) : s = "" := by
  cases s with
  | mk d =>
    cases d with
    | nil => rfl
    | cons c cs => simp [String.length] at h

theorem pyJoin_cons_ne_empty (sep : String) (l : String) (t : List String) (h : l ≠ "") :
    pyJoin sep (l :: t) ≠ "" := by
  cases t with
  | nil => simpa [pyJoin] using h
  | cons b bs =>
    intro heq
    have hlen := congrArg String.length heq
    simp only [pyJoin, String.length_append, String.length_empty] at hlen
    exact h (string_of_length_zero (by omega))

theorem formatOne_cons (r : QueryResult) :
    ∃ hd tl, formatOne r = hd :: tl ∧ hd ≠ "" := by
  unfold formatOne
  by_cases hs : r.success = true
  · rw [if_pos hs]
    by_cases hr : r.results.isEmpty
    · rw [if_pos hr]
      exact ⟨_, _, rfl, by decide⟩
    · rw [if_neg hr]
      refine ⟨_, _, rfl, ?_⟩
      apply string_ne_of_head_ne
      simp [String.data_append]
  · rw [if_neg hs]
    refine ⟨_, _, rfl, ?_⟩
    apply string_ne_of_head_ne
    simp [String.data_append]

/-- C10: for every non-empty extracted query list, formatting the executor's
output yields a non-empty string (every result contributes at least one
non-empty line), so the branch of the iterative loop that returns the raw
completion on empty formatted feedback can never be taken when at least one
query was extracted. -/
theorem c10_no_empty_feedback (db : String → Bool × List Row × String)
    (qs : List String) (hq : qs ≠ []) :
    formatQueryResults (executeSqlQueries db qs) ≠ "" := by
  obtain ⟨q, qt, rfl⟩ := List.exists_cons_of_ne_nil hq
  rw [executeSqlQueries_eq_map, formatQueryResults_eq_join, if_neg (by simp)]
  rw [List.map_cons, List.flatMap_cons]
  obtain ⟨hd, tl, hfo, hhd⟩ := formatOne_cons (mkQueryResult db q)
  rw [hfo]
  exact pyJoin_cons_ne_empty _ _ _ hhd

/-- Witness for C10 at a concrete one-query batch. -/
theorem c10_no_empty_feedback_witness :
    formatQueryResults (executeSqlQueries sampleDb ["BAD"]) ≠ "" :=
  c10_no_empty_feedback sampleDb ["BAD"] (by simp)

theorem processIter_bound (model : List Msg → String)
    (db : String → Bool × List Row × String) (sysP : String)
    (decisionFmt : String → String → Nat → Nat → String)
    (finalFmt : Nat → String → String) (origMsg : String) (maxIter : Nat) :
    ∀ fuel iterCount ctx hist,
      (processIter model db sysP decisionFmt finalFmt origMsg maxIter
          fuel iterCount ctx hist).2.2 ≤ fuel + 1 ∧
      ((processIter model db sysP decisionFmt finalFmt origMsg maxIter
          fuel iterCount ctx hist).2.2 = fuel + 1 →
        ∃ h', (processIter model db sysP decisionFmt finalFmt origMsg maxIter
            fuel iterCount ctx hist).1
          = getAIResponse model sysP h' (finalFmt maxIter origMsg)) := by
  intro fuel
  induction fuel with
  | zero =>
    intro iterCount ctx hist
    exact ⟨by simp [processIter], fun _ => ⟨hist, by simp [processIter]⟩⟩
  | succ n ih =>
    intro iterCount ctx hist
    simp only [processIter]
    by_cases h1 : (extractSqlQueries (getAIResponse model sysP hist ctx)).isEmpty
    · rw [if_pos h1]
      refine ⟨?_, ?_⟩
      · show (1 : Nat) ≤ n + 1 + 1
        omega
      · intro h
        have h' : (1 : Nat) = n + 1 + 1 := h
        omega
    · rw [if_neg h1]
      by_cases h2 : formatQueryResults (executeSqlQueries db
          (extractSqlQueries (getAIResponse model sysP hist ctx))) = ""
      · rw [if_pos h2]
        refine ⟨?_, ?_⟩
        · show (1 : Nat) ≤ n + 1 + 1
          omega
        · intro h
          have h' : (1 : Nat) = n + 1 + 1 := h
          omega
      · rw [if_neg h2]
        exact ⟨Nat.add_le_add_right (ih _ _ _).1 1,
          fun h => (ih _ _ _).2 (Nat.succ_injective h)⟩

/-- C2: for every completion oracle, store oracle, templates and input, the
iterative loop terminates with at most max_iterations + 1 ModelClient calls
(one per iteration while extraction yields actions, plus the forced final
call); when the budget is exhausted (exactly max_iterations + 1 calls) the
answer returned to the user is the model's raw output on the final-iteration
prompt, with no action extraction applied to it. -/
theorem c2_loop_termination (model : List Msg → String)
    (db : String → Bool × List Row × String) (sysP : String)
    (decisionFmt : String → String → Nat → Nat → String)
    (finalFmt : Nat → String → String) (maxIter : Nat) (hist : List Msg)
    (userMsg : String) :
    (processMessage model db sysP decisionFmt finalFmt maxIter hist userMsg).2.2
      ≤ maxIter + 1 ∧
    ((processMessage model db sysP decisionFmt finalFmt maxIter hist userMsg).2.2
        = maxIter + 1 →
      ∃ h', (processMessage model db sysP decisionFmt finalFmt maxIter hist userMsg).1
        = getAIResponse model sysP h' (finalFmt maxIter userMsg)) := by
  unfold processMessage
  exact processIter_bound model db sysP decisionFmt finalFmt userMsg maxIter
    maxIter 0 userMsg (hist ++ [{ role := "user", content := userMsg }])

/-- Witness for C2 with the default cap 5 and an oracle that always issues an
action: the loop makes exactly 6 ModelClient calls and returns the raw final
completion. -/
theorem c2_loop_termination_witness :
    (processMessage sampleModel sampleDb "SYS" sampleDecisionFmt sampleFinalFmt
        5 [] "hello").2.2 ≤ 5 + 1 ∧
    ∃ h', (processMessage sampleModel sampleDb "SYS" sampleDecisionFmt sampleFinalFmt
        5 [] "hello").1
      = getAIResponse sampleModel "SYS" h' (sampleFinalFmt 5 "hello") := by
  refine ⟨(c2_loop_termination sampleModel sampleDb "SYS" sampleDecisionFmt
    sampleFinalFmt 5 [] "hello").1, ?_⟩
  exact (c2_loop_termination sampleModel sampleDb "SYS" sampleDecisionFmt
    sampleFinalFmt 5 [] "hello").2 (by decide)

theorem processIter_append_only (model : List Msg → String)
    (db : String → Bool × List Row × String) (sysP : String)
    (decisionFmt : String → String → Nat → Nat → String)
    (finalFmt : Nat → String → String) (origMsg : String) (maxIter : Nat) :
    ∀ fuel iterCount ctx hist, ∃ ext,
      (processIter model db sysP decisionFmt finalFmt origMsg maxIter
          fuel iterCount ctx hist).2.1 = hist ++ ext := by
  intro fuel
  induction fuel with
  | zero =>
    intro iterCount ctx hist
    exact ⟨[{ role := "user", content := finalFmt maxIter origMsg },
      { role := "assistant",
        content := getAIResponse model sysP hist (finalFmt maxIter origMsg) }],
      by simp [processIter]⟩
  | succ n ih =>
    intro iterCount ctx hist
    simp only [processIter]
    set ai := getAIResponse model sysP hist ctx with hai
    set out := formatQueryResults (executeSqlQueries db (extractSqlQueries ai)) with hout
    set dm := decisionMessage decisionFmt out origMsg (iterCount + 1) maxIter with hdm
    by_cases h1 : (extractSqlQueries ai).isEmpty
    · rw [if_pos h1]
      exact ⟨_, rfl⟩
    · rw [if_neg h1]
      by_cases h2 : out = ""
      · rw [if_pos h2]
        exact ⟨_, rfl⟩
      · rw [if_neg h2]
        obtain ⟨ext, hext⟩ := ih (iterCount + 1) dm
          (hist ++ [{ role := "assistant", content := ai }]
            ++ [{ role := "user", content := dm }])
        exact ⟨{ role := "assistant", content := ai } ::
          { role := "user", content := dm } :: ext, hext.trans (by simp)⟩

theorem mem_lastN_last {α : Type} (l : List α) (a : α) (n : Nat) (hn : 1 ≤ n) :
    a ∈ lastN n (l ++ [a]) := by
  unfold lastN
  rw [List.drop_append_eq_append_drop]
  refine List.mem_append_right _ ?_
  have hle : (l ++ [a]).length - n - l.length = 0 := by
    rw [List.length_append]
    simp
    omega
  rw [hle]
  simp

/-- C3: after appending the user's message, the outbound sequence of the next
ModelClient call is the system turn, the current user turn, and exactly the
10 most recent retained turns (12 messages in all when more than 10 prior
turns are retained); positions before the last 10 are omitted from the
outbound call; and the retained history is append-only: processing only ever
extends it. -/
theorem c3_context_truncation (sysP : String) (hist : List Msg) (userMsg : String)
    (h10 : 10 < hist.length) :
    getAIMessages sysP (hist ++ [Msg.mk "user" userMsg]) userMsg
      = [Msg.mk "system" sysP, Msg.mk "user" userMsg]
        ++ (hist ++ [Msg.mk "user" userMsg]).drop (hist.length + 1 - 10) ∧
    (getAIMessages sysP (hist ++ [Msg.mk "user" userMsg]) userMsg).length = 12 ∧
    (∀ m ∈ getAIMessages sysP (hist ++ [Msg.mk "user" userMsg]) userMsg,
      m = Msg.mk "system" sysP ∨
      m ∈ lastN 10 (hist ++ [Msg.mk "user" userMsg])) ∧
    (∀ model db decisionFmt finalFmt maxIter, ∃ ext,
      (processMessage model db sysP decisionFmt finalFmt maxIter hist userMsg).2.1
        = hist ++ [Msg.mk "user" userMsg] ++ ext) := by
  refine ⟨?_, ?_, ?_, ?_⟩
  · simp [getAIMessages, lastN]
  · simp [getAIMessages, lastN]
    omega
  · intro m hm
    simp only [getAIMessages, List.cons_append, List.nil_append, List.mem_cons] at hm
    rcases hm with h | h | h
    · exact Or.inl h
    · refine Or.inr ?_
      rw [h]
      exact mem_lastN_last hist _ 10 (by omega)
    · exact Or.inr h
  · intro model db decisionFmt finalFmt maxIter
    unfold processMessage
    exact processIter_append_only model db sysP decisionFmt finalFmt userMsg maxIter
      maxIter 0 userMsg (hist ++ [{ role := "user", content := userMsg }])

/-- Witness for C3 on a retained conversation with 12 prior turns. -/
theorem c3_context_truncation_witness :
    (getAIMessages "SYS" (sampleHist ++ [Msg.mk "user" "m13"]) "m13").length = 12 ∧
    ∃ ext, (processMessage sampleModel sampleDb "SYS" sampleDecisionFmt sampleFinalFmt
        5 sampleHist "m13").2.1
      = sampleHist ++ [Msg.mk "user" "m13"] ++ ext :=
  ⟨(c3_context_truncation "SYS" sampleHist "m13" (by decide)).2.1,
   (c3_context_truncation "SYS" sampleHist "m13" (by decide)).2.2.2
     sampleModel sampleDb sampleDecisionFmt sampleFinalFmt 5⟩

theorem processAllIncentives_eq_map (kwOracle : Incentive → Option (List String))
    (dbq : String → Nat → List Company)
    (rankOracle : Incentive → List Company → Option (List Int))
    (incentives : List Incentive) :
    processAllIncentives kwOracle dbq rankOracle incentives
      = incentives.map
          (fun inc => (inc.incentive_id, processOneIncentive kwOracle dbq rankOracle inc)) := by
  unfold processAllIncentives
  simpa using foldl_append_eq_map
    (fun inc => (inc.incentive_id, processOneIncentive kwOracle dbq rankOracle inc))
    incentives []

/-- C8: the batch pipeline produces exactly one result entry per record, in
order and without raising; a record whose keyword extraction is unparsable
gets keywords = [], candidates = [], ranked ids = [] and an error field; and
each record's entry depends only on that record, so the records after a
failed one are still processed normally. -/
theorem c8_batch_partial_failure (kwOracle : Incentive → Option (List String))
    (dbq : String → Nat → List Company)
    (rankOracle : Incentive → List Company → Option (List Int))
    (incentives : List Incentive) :
    (processAllIncentives kwOracle dbq rankOracle incentives).length
      = incentives.length ∧
    (∀ i : Nat, (processAllIncentives kwOracle dbq rankOracle incentives)[i]?
      = (incentives[i]?).map
          (fun inc => (inc.incentive_id, processOneIncentive kwOracle dbq rankOracle inc))) ∧
    (∀ inc, kwOracle inc = none →
      processOneIncentive kwOracle dbq rankOracle inc
        = { incentive := inc, keywords := [], top_25_companies := [],
            top_5_company_ids := [], error := some "No keywords extracted" }) := by
  rw [processAllIncentives_eq_map]
  refine ⟨by simp, by intro i; simp, ?_⟩
  intro inc hkw
  unfold processOneIncentive extractKeywordsFromIncentive
  rw [hkw]
  simp

/-- Witness for C8: a two-record batch whose first record's keyword
extraction is unparsable; the first entry is the error entry with empty
fields and the second record is still processed to a successful entry. -/
theorem c8_batch_partial_failure_witness :
    (processAllIncentives sampleKwOracle sampleDbq sampleRankOracle
        [sampleIncentive1, sampleIncentive2]).length = 2 ∧
    processOneIncentive sampleKwOracle sampleDbq sampleRankOracle sampleIncentive1
      = { incentive := sampleIncentive1, keywords := [], top_25_companies := [],
          top_5_company_ids := [], error := some "No keywords extracted" } ∧
    (processOneIncentive sampleKwOracle sampleDbq sampleRankOracle sampleIncentive2).error
      = none := by
  refine ⟨?_, ?_, ?_⟩
  · exact (c8_batch_partial_failure sampleKwOracle sampleDbq sampleRankOracle
      [sampleIncentive1, sampleIncentive2]).1
  · exact (c8_batch_partial_failure sampleKwOracle sampleDbq sampleRankOracle
      [sampleIncentive1, sampleIncentive2]).2.2 sampleIncentive1 (by decide)
  · decide


theorem lookup_cons_eq_ite {β : Type} (a id : Int) (b : β) (t : List (Int × β)) :
    List.lookup id ((a, b) :: t) = if id = a then some b else List.lookup id t := by
  by_cases h : id = a
  · simp [List.lookup, h]
  · have hb : (id == a) = false := by simp [h]
    simp [List.lookup, hb, h]

theorem lookup_map_replace {β : Type} (m : List (Int × β)) (k : Int) (v : β) (id : Int) :
    (m.map (fun p => if p.1 = k then (k, v) else p)).lookup id
      = if id = k then (if (m.lookup k).isSome then some v else none)
        else m.lookup id := by
  induction m with
  | nil => by_cases h : id = k <;> simp [h]
  | cons hd t ih =>
    obtain ⟨a, b⟩ := hd
    simp only [List.map_cons]
    by_cases hak : a = k
    · subst hak
      rw [if_pos rfl]
      simp only [lookup_cons_eq_ite, ih]
      split_ifs <;> simp_all
    · rw [if_neg hak]
      simp only [lookup_cons_eq_ite, ih]
      split_ifs <;> simp_all

theorem lookup_append_single {β : Type} (m : List (Int × β)) (k : Int) (v : β) (id : Int) :
    (m ++ [(k, v)]).lookup id
      = match m.lookup id with
        | some w => some w
        | none => if id = k then some v else none := by
  induction m with
  | nil =>
    by_cases h : id = k <;> simp [lookup_cons_eq_ite, h]
  | cons hd t ih =>
    obtain ⟨a, b⟩ := hd
    rw [List.cons_append, lookup_cons_eq_ite, lookup_cons_eq_ite, ih]
    by_cases hid : id = a
    · rw [if_pos hid, if_pos hid]
    · rw [if_neg hid, if_neg hid]

theorem foldl_filter_map {α β : Type} (cond : α → Bool) (g : α → β) :
    ∀ (l : List α) (acc : List β),
      l.foldl (fun a x => if cond x then a else a ++ [g x]) acc
        = acc ++ (l.filter (fun x => !cond x)).map g := by
  intro l
  induction l with
  | nil => simp
  | cons x xs ih =>
    intro acc
    by_cases h : cond x
    · simp [List.foldl_cons, h, ih]
    · simp [List.foldl_cons, h, ih]

theorem createSimplifiedResults_eq (results : List (Int × IncentiveResult)) :
    createSimplifiedResults results
      = (results.filter (fun p => !p.2.error.isSome)).map
          (fun p => (p.1, SimplifiedResult.mk p.2.incentive p.2.keywords
            (simplifiedCompanies p.2))) := by
  unfold createSimplifiedResults
  simpa using foldl_filter_map (fun p => p.2.error.isSome)
    (fun p => (p.1, SimplifiedResult.mk p.2.incentive p.2.keywords
      (simplifiedCompanies p.2))) results []

theorem companyLookup_fold_sound (P : Company → Prop) :
    ∀ (cs : List Company) (m : List (Int × Company)),
      (∀ c ∈ cs, P c) →
      (∀ k c, m.lookup k = some c → c.id = k ∧ P c) →
      ∀ k c,
        ((cs.foldl (fun m c =>
            if (m.lookup c.id).isSome then
              m.map (fun p => if p.1 = c.id then (c.id, c) else p)
            else m ++ [(c.id, c)]) m).lookup k = some c) → c.id = k ∧ P c := by
  intro cs
  induction cs with
  | nil =>
    intro m _ hm k c h
    exact hm k c h
  | cons c0 rest ih =>
    intro m hP hm k c h
    rw [List.foldl_cons] at h
    refine ih _ (fun x hx => hP x (List.mem_cons_of_mem _ hx)) ?_ k c h
    intro k' x h'
    by_cases hcase : (m.lookup c0.id).isSome
    · rw [if_pos hcase, lookup_map_replace] at h'
      by_cases hk : k' = c0.id
      · rw [if_pos hk, if_pos hcase] at h'
        obtain rfl := Option.some.inj h'
        exact ⟨hk.symm, hP c0 (List.mem_cons_self _ _)⟩
      · rw [if_neg hk] at h'
        exact hm k' x h'
    · rw [if_neg hcase, lookup_append_single] at h'
      cases hml : m.lookup k' with
      | some w =>
        rw [hml] at h'
        obtain rfl := Option.some.inj h'
        exact hm k' w hml
      | none =>
        rw [hml] at h'
        by_cases hk : k' = c0.id
        · rw [if_pos hk] at h'
          obtain rfl := Option.some.inj h'
          exact ⟨hk.symm, hP c0 (List.mem_cons_self _ _)⟩
        · rw [if_neg hk] at h'
          exact absurd h' (by simp)

theorem companyLookup_sound (cs : List Company) (k : Int) (c : Company)
    (h : (companyLookup cs).lookup k = some c) : c.id = k ∧ c ∈ cs := by
  refine companyLookup_fold_sound (fun x => x ∈ cs) cs [] (fun x hx => hx) ?_ k c h
  intro k' x h'
  simp at h'

/-- C9: every record of the reduced artifact comes from an error-free record
of the full artifact with the same key, keeps its incentive and keywords, and
its ranked entities all carry ids found among that record's candidate set
(ranked ids absent from the candidates are dropped), each entity carrying
exactly the candidate's id and display name. -/
theorem c9_reduced_artifact (results : List (Int × IncentiveResult)) :
    ∀ p ∈ createSimplifiedResults results,
      ∃ data, (p.1, data) ∈ results ∧ data.error = none ∧
        p.2.incentive = data.incentive ∧ p.2.keywords = data.keywords ∧
        ∀ sc ∈ p.2.companies,
          sc.id ∈ data.top_5_company_ids ∧
          ∃ c ∈ data.top_25_companies, c.id = sc.id ∧ sc.name = c.company_name := by
  intro p hp
  rw [createSimplifiedResults_eq] at hp
  obtain ⟨q, hq, hpq⟩ := List.mem_map.mp hp
  obtain ⟨hqmem, hqcond⟩ := List.mem_filter.mp hq
  subst hpq
  refine ⟨q.2, by simpa using hqmem, by simpa using hqcond, rfl, rfl, ?_⟩
  intro sc hsc
  unfold simplifiedCompanies at hsc
  obtain ⟨cid, hcid, hmap⟩ := List.mem_filterMap.mp hsc
  cases hl : (companyLookup q.2.top_25_companies).lookup cid with
  | none =>
    rw [hl] at hmap
    simp at hmap
  | some comp =>
    rw [hl] at hmap
    simp only [Option.map_some'] at hmap
    obtain ⟨hid, hin⟩ := companyLookup_sound q.2.top_25_companies cid comp hl
    obtain rfl := Option.some.inj hmap
    exact ⟨by simpa [hid] using hcid, comp, hin, rfl, rfl⟩

/-- Witness for C9 on a one-record artifact whose ranked ids are
[11, 99, 10] with 99 absent from the candidates: the reduced entry lists
exactly ids 11 and 10 with their display names. -/
theorem c9_reduced_artifact_witness :
    ∃ data, ((2 : Int), data) ∈ sampleResults ∧ data.error = none ∧
      sampleIncentive2 = data.incentive ∧ (["energia"] : List String) = data.keywords ∧
      ∀ sc ∈ [SimpleCompany.mk 11 "Onze", SimpleCompany.mk 10 "Solar Lda"],
        sc.id ∈ data.top_5_company_ids ∧
        ∃ c ∈ data.top_25_companies, c.id = sc.id ∧ sc.name = c.company_name :=
  c9_reduced_artifact sampleResults
    ((2 : Int), SimplifiedResult.mk sampleIncentive2 ["energia"]
      [SimpleCompany.mk 11 "Onze", SimpleCompany.mk 10 "Solar Lda"]) (by decide)

theorem foldl_foldl_flatMap {α β γ : Type} (f : α → List β) (step : γ → β → γ) :
    ∀ (l : List α) (acc : γ),
      l.foldl (fun a w => (f w).foldl step a) acc = (l.flatMap f).foldl step acc := by
  intro l
  induction l with
  | nil => simp
  | cons x xs ih =>
    intro acc
    simp [List.flatMap_cons, List.foldl_append, ih]

theorem mergeAll_eq_foldl (dbq : String → Nat → List Company) (words : List String)
    (limit : Nat) :
    mergeAll dbq words limit = (allRows dbq words limit).foldl mergeStep [] := by
  unfold mergeAll allRows
  exact foldl_foldl_flatMap (fun w => dbq w limit) mergeStep words []

theorem mergeStep_sound (m : List (Int × Company)) (r : Company) (seen : List Company)
    (h1 : ∀ k c, m.lookup k = some c → c.id = k ∧ c ∈ seen ∧
      ∀ c' ∈ seen, c'.id = k → c'.relevance_score ≤ c.relevance_score)
    (h2 : ∀ c' ∈ seen, (m.lookup c'.id).isSome) :
    (∀ k c, (mergeStep m r).lookup k = some c → c.id = k ∧ c ∈ seen ++ [r] ∧
      ∀ c' ∈ seen ++ [r], c'.id = k → c'.relevance_score ≤ c.relevance_score) ∧
    (∀ c' ∈ seen ++ [r], ((mergeStep m r).lookup c'.id).isSome) := by
  constructor
  · intro k c h
    unfold mergeStep at h
    split at h
    case _ hml =>
      rw [lookup_append_single] at h
      cases hmk : m.lookup k with
      | some w =>
        rw [hmk] at h
        obtain rfl := Option.some.inj h
        obtain ⟨hid, hmem, hmax⟩ := h1 k w hmk
        refine ⟨hid, List.mem_append_left _ hmem, ?_⟩
        intro c' hc' hcid
        rcases List.mem_append.mp hc' with hc' | hc'
        · exact hmax c' hc' hcid
        · rcases List.mem_singleton.mp hc' with rfl
          rw [hcid] at hml
          rw [hml] at hmk
          cases hmk
      | none =>
        rw [hmk] at h
        by_cases hk : k = r.id
        · rw [if_pos hk] at h
          obtain rfl := Option.some.inj h
          refine ⟨hk.symm, List.mem_append_right _ (List.mem_singleton_self _), ?_⟩
          intro c' hc' hcid
          rcases List.mem_append.mp hc' with hc' | hc'
          · have hs := h2 c' hc'
            rw [hcid, hmk] at hs
            cases hs
          · rcases List.mem_singleton.mp hc' with rfl
            exact le_refl _
        · rw [if_neg hk] at h
          cases h
    case _ old hml =>
      by_cases hlt : old.relevance_score < r.relevance_score
      · rw [if_pos hlt, lookup_map_replace] at h
        by_cases hk : k = r.id
        · rw [if_pos hk, hml] at h
          simp only [Option.isSome_some, if_true] at h
          obtain rfl := Option.some.inj h
          obtain ⟨hoid, homem, homax⟩ := h1 r.id old hml
          refine ⟨hk.symm, List.mem_append_right _ (List.mem_singleton_self _), ?_⟩
          intro c' hc' hcid
          rcases List.mem_append.mp hc' with hc' | hc'
          · have := homax c' hc' (hcid.trans hk)
            exact le_trans this (le_of_lt hlt)
          · rcases List.mem_singleton.mp hc' with rfl
            exact le_refl _
        · rw [if_neg hk] at h
          obtain ⟨hid, hmem, hmax⟩ := h1 k c h
          refine ⟨hid, List.mem_append_left _ hmem, ?_⟩
          intro c' hc' hcid
          rcases List.mem_append.mp hc' with hc' | hc'
          · exact hmax c' hc' hcid
          · rcases List.mem_singleton.mp hc' with rfl
            exact absurd hcid.symm hk
      · rw [if_neg hlt] at h
        by_cases hk : k = r.id
        · subst hk
          rw [hml] at h
          obtain rfl := Option.some.inj h
          obtain ⟨hid, hmem, hmax⟩ := h1 r.id old hml
          refine ⟨hid, List.mem_append_left _ hmem, ?_⟩
          intro c' hc' hcid
          rcases List.mem_append.mp hc' with hc' | hc'
          · exact hmax c' hc' hcid
          · rcases List.mem_singleton.mp hc' with rfl
            exact le_of_not_lt hlt
        · obtain ⟨hid, hmem, hmax⟩ := h1 k c h
          refine ⟨hid, List.mem_append_left _ hmem, ?_⟩
          intro c' hc' hcid
          rcases List.mem_append.mp hc' with hc' | hc'
          · exact hmax c' hc' hcid
          · rcases List.mem_singleton.mp hc' with rfl
            exact absurd hcid.symm hk
  · intro c' hc'
    rcases List.mem_append.mp hc' with hc' | hc'
    · have hs := h2 c' hc'
      unfold mergeStep
      split
      case _ hml =>
        rw [lookup_append_single]
        cases hmk : m.lookup c'.id with
        | some w => simp
        | none =>
          rw [hmk] at hs
          cases hs
      case _ old hml =>
        by_cases hlt : old.relevance_score < r.relevance_score
        · rw [if_pos hlt, lookup_map_replace]
          by_cases hk : c'.id = r.id
          · rw [if_pos hk, hml]
            simp
          · rw [if_neg hk]
            exact hs
        · rw [if_neg hlt]
          exact hs
    · rcases List.mem_singleton.mp hc' with rfl
      unfold mergeStep
      split
      case _ hml =>
        rw [lookup_append_single, hml]
        simp
      case _ old hml =>
        by_cases hlt : old.relevance_score < c'.relevance_score
        · rw [if_pos hlt, lookup_map_replace, if_pos rfl, hml]
          simp
        · rw [if_neg hlt, hml]
          simp

theorem mergeFold_sound :
    ∀ (rows : List Company) (m : List (Int × Company)) (seen : List Company),
      (∀ k c, m.lookup k = some c → c.id = k ∧ c ∈ seen ∧
        ∀ c' ∈ seen, c'.id = k → c'.relevance_score ≤ c.relevance_score) →
      (∀ c' ∈ seen, (m.lookup c'.id).isSome) →
      (∀ k c, (rows.foldl mergeStep m).lookup k = some c → c.id = k ∧
        c ∈ seen ++ rows ∧
        ∀ c' ∈ seen ++ rows, c'.id = k → c'.relevance_score ≤ c.relevance_score) ∧
      (∀ c' ∈ seen ++ rows, ((rows.foldl mergeStep m).lookup c'.id).isSome) := by
  intro rows
  induction rows with
  | nil =>
    intro m seen h1 h2
    simp only [List.foldl_nil, List.append_nil]
    exact ⟨h1, h2⟩
  | cons r rest ih =>
    intro m seen h1 h2
    rw [List.foldl_cons]
    obtain ⟨k1, k2⟩ := mergeStep_sound m r seen h1 h2
    obtain ⟨r1, r2⟩ := ih (mergeStep m r) (seen ++ [r]) k1 k2
    constructor
    · intro k c h
      obtain ⟨hid, hmem, hmax⟩ := r1 k c h
      refine ⟨hid, by simpa using hmem, ?_⟩
      intro c' hc' hcid
      exact hmax c' (by simpa using hc') hcid
    · intro c' hc'
      exact r2 c' (by simpa using hc')

/-- C7: the per-token fallback executes exactly when the primary disjunctive
query returns fewer than limit / 2 rows; when it does not execute the result
is the primary result unchanged; when it executes, the merge keeps, per
company id, a row of maximal relevance score among all rows observed across
the per-token queries (and every observed id is present), and the final list
is the merged rows re-sorted descending by score and truncated to the
limit. -/
theorem c7_fallback_search (dbq : String → Nat → List Company)
    (keywords : List String) (limit : Nat) (hk : keywords ≠ []) :
    (limit / 2 ≤ (dbq (searchTerms keywords) limit).length →
      searchCompaniesByKeywords dbq keywords limit = dbq (searchTerms keywords) limit) ∧
    ((dbq (searchTerms keywords) limit).length < limit / 2 →
      searchCompaniesByKeywords dbq keywords limit
        = (((mergeAll dbq (uniqueWords keywords) limit).map Prod.snd).insertionSort
            scoreGe).take limit ∧
      (searchCompaniesByKeywords dbq keywords limit).length ≤ limit ∧
      List.Sorted scoreGe (searchCompaniesByKeywords dbq keywords limit) ∧
      (∀ k c, (mergeAll dbq (uniqueWords keywords) limit).lookup k = some c →
        c.id = k ∧ c ∈ allRows dbq (uniqueWords keywords) limit ∧
        ∀ c' ∈ allRows dbq (uniqueWords keywords) limit,
          c'.id = k → c'.relevance_score ≤ c.relevance_score) ∧
      (∀ c' ∈ allRows dbq (uniqueWords keywords) limit,
        ((mergeAll dbq (uniqueWords keywords) limit).lookup c'.id).isSome)) := by
  have hne : ¬keywords.isEmpty = true := by simpa using hk
  constructor
  · intro h
    unfold searchCompaniesByKeywords
    rw [if_neg hne, if_neg (by omega)]
  · intro h
    have heq : searchCompaniesByKeywords dbq keywords limit
        = (((mergeAll dbq (uniqueWords keywords) limit).map Prod.snd).insertionSort
            scoreGe).take limit := by
      unfold searchCompaniesByKeywords
      rw [if_neg hne, if_pos h]
    refine ⟨heq, ?_, ?_, ?_, ?_⟩
    · rw [heq, List.length_take]
      exact min_le_left _ _
    · rw [heq]
      exact List.Pairwise.sublist (List.take_sublist _ _)
        (List.sorted_insertionSort scoreGe _)
    · intro k c hc
      rw [mergeAll_eq_foldl] at hc
      have hfold := (mergeFold_sound (allRows dbq (uniqueWords keywords) limit) [] []
        (by intro k' c' h'; simp at h') (by intro c' hc'; simp at hc')).1 k c hc
      simpa using hfold
    · intro c' hc'
      rw [mergeAll_eq_foldl]
      exact (mergeFold_sound (allRows dbq (uniqueWords keywords) limit) [] []
        (by intro k' c' h'; simp at h') (by intro x hx; simp at hx)).2 c'
        (by simpa using hc')

/-- Witness for C7: the primary query returns no rows, the per-token queries
return overlapping rows for id 1 with scores 3 and 5; the merged entry for
id 1 carries the maximal score 5 and the final list is sorted descending. -/
theorem c7_fallback_search_witness :
    searchCompaniesByKeywords sampleDbq2 ["energia solar", "transporte marítimo"] 25
      = [companyA5, companyB2] ∧
    List.Sorted scoreGe (searchCompaniesByKeywords sampleDbq2
      ["energia solar", "transporte marítimo"] 25) ∧
    ∀ c' ∈ allRows sampleDbq2 (uniqueWords ["energia solar", "transporte marítimo"]) 25,
      ((mergeAll sampleDbq2 (uniqueWords ["energia solar", "transporte marítimo"]) 25).lookup
        c'.id).isSome := by
  have h := (c7_fallback_search sampleDbq2 ["energia solar", "transporte marítimo"] 25
    (by decide)).2 (by decide)
  exact ⟨h.1.trans (by decide), h.2.2.1, h.2.2.2.2⟩

theorem stripCI_self (p : List Char) : ∀ t, stripCI p (p ++ t) = some t := by
  induction p with
  | nil => intro t; rfl
  | cons c cs ih =>
    intro t
    simp only [List.cons_append]
    unfold stripCI
    rw [if_pos rfl]
    exact ih t

theorem stripCI_split (p q : List Char) :
    ∀ l r, stripCI (p ++ q) l = some r → ∃ mid, stripCI p l = some mid ∧ stripCI q mid = some r := by
  induction p with
  | nil => intro l r h; exact ⟨l, rfl, h⟩
  | cons c cs ih =>
    intro l r h
    cases l with
    | nil =>
      rw [List.cons_append] at h
      rw [show stripCI (c :: (cs ++ q)) [] = none from rfl] at h
      cases h
    | cons x xs =>
      rw [List.cons_append] at h
      by_cases hc : pyCharLower c = pyCharLower x
      · have h' : stripCI (cs ++ q) xs = some r := by
          unfold stripCI at h
          rwa [if_pos hc] at h
        obtain ⟨mid, h1, h2⟩ := ih xs r h'
        refine ⟨mid, ?_, h2⟩
        unfold stripCI
        rw [if_pos hc]
        exact h1
      · exfalso
        unfold stripCI at h
        rw [if_neg hc] at h
        cases h

theorem stripCI_length (p : List Char) :
    ∀ l r, stripCI p l = some r → l.length = p.length + r.length := by
  induction p with
  | nil =>
    intro l r h
    cases h
    simp
  | cons c cs ih =>
    intro l r h
    cases l with
    | nil => cases h
    | cons x xs =>
      unfold stripCI at h
      by_cases hc : pyCharLower c = pyCharLower x
      · rw [if_pos hc] at h
        have := ih xs r h
        simp [this]
        omega
      · rw [if_neg hc] at h
        cases h

theorem stripCI_close_none (c : Char) (l : List Char) (h : fenceFreeChar c = true) :
    stripCI closeMarker (c :: l) = none := by
  have hm : closeMarker = tickChar :: closeMarker.tail := by decide
  rw [hm]
  unfold stripCI
  have ht : pyCharLower tickChar = tickChar := by decide
  rw [ht]
  by_cases he : tickChar = pyCharLower c
  · exfalso
    unfold fenceFreeChar at h
    rw [← he] at h
    have : closeMarker.contains tickChar = true := by decide
    rw [this] at h
    cases h
  · rw [if_neg he]

theorem stripCI_fence_none (c : Char) (l : List Char) (h : fenceFreeChar c = true) :
    stripCI fenceMarker (c :: l) = none := by
  have hm : fenceMarker = tickChar :: fenceMarker.tail := by decide
  rw [hm]
  unfold stripCI
  have ht : pyCharLower tickChar = tickChar := by decide
  rw [ht]
  by_cases he : tickChar = pyCharLower c
  · exfalso
    unfold fenceFreeChar at h
    rw [← he] at h
    have : closeMarker.contains tickChar = true := by decide
    rw [this] at h
    cases h
  · rw [if_neg he]

theorem dropWS_length_le (l : List Char) : (dropWS l).length ≤ l.length := by
  unfold dropWS
  induction l with
  | nil => simp
  | cons c rest ih =>
    by_cases h : pyIsSpace c
    · rw [List.dropWhile_cons, if_pos h]
      simp only [List.length_cons]
      omega
    · rw [List.dropWhile_cons, if_neg h]

theorem findClose_length :
    ∀ l content after, findClose l = some (content, after) → after.length + 3 ≤ l.length := by
  intro l
  induction l with
  | nil =>
    intro content after h
    cases h
  | cons c rest ih =>
    intro content after h
    unfold findClose at h
    cases hs : stripCI closeMarker (dropWS (c :: rest)) with
    | some aft =>
      rw [hs] at h
      obtain ⟨rfl, rfl⟩ := Prod.mk.injEq .. ▸ Option.some.inj h
      have hlen := stripCI_length closeMarker _ _ hs
      have hd := dropWS_length_le (c :: rest)
      have hcm : closeMarker.length = 3 := by decide
      omega
    | none =>
      rw [hs] at h
      cases hf : findClose rest with
      | none =>
        rw [hf] at h
        cases h
      | some p =>
        rw [hf] at h
        obtain ⟨pc, pa⟩ := p
        simp only [Option.map_some'] at h
        have h2 := (Prod.mk.injEq ..).mp (Option.some.inj h)
        obtain ⟨h21, h22⟩ := h2
        subst h22
        have := ih pc pa hf
        simp only [List.length_cons]
        omega

theorem tryFence_length (l content after : List Char)
    (h : tryFence l = some (content, after)) : after.length < l.length := by
  unfold tryFence at h
  cases hs : stripCI fenceMarker l with
  | none =>
    rw [hs] at h
    cases h
  | some rest =>
    rw [hs] at h
    have h1 := stripCI_length fenceMarker l rest hs
    have h2 := findClose_length (dropWS rest) content after h
    have h3 := dropWS_length_le rest
    have h4 : fenceMarker.length = 6 := by decide
    omega

theorem extractAux_nil (fuel : Nat) : extractAux fuel [] = [] := by
  cases fuel <;> rfl

theorem extractAux_succ_some {fuel : Nat} {c : Char} {rest content after : List Char}
    (h : tryFence (c :: rest) = some (content, after)) :
    extractAux (fuel + 1) (c :: rest) = content :: extractAux fuel after := by
  simp only [extractAux, h]

theorem extractAux_succ_none {fuel : Nat} {c : Char} {rest : List Char}
    (h : tryFence (c :: rest) = none) :
    extractAux (fuel + 1) (c :: rest) = extractAux fuel rest := by
  simp only [extractAux, h]

theorem extractAux_fuel :
    ∀ f1 f2 l, l.length ≤ f1 → l.length ≤ f2 → extractAux f1 l = extractAux f2 l := by
  intro f1
  induction f1 with
  | zero =>
    intro f2 l h1 _
    have h0 : l = [] := by
      cases l with
      | nil => rfl
      | cons a t => simp at h1
    subst h0
    rw [extractAux_nil, extractAux_nil]
  | succ n ih =>
    intro f2 l h1 h2
    cases l with
    | nil => rw [extractAux_nil, extractAux_nil]
    | cons c rest =>
      cases f2 with
      | zero => simp at h2
      | succ m =>
        cases ht : tryFence (c :: rest) with
        | some p =>
          obtain ⟨content, after⟩ := p
          rw [extractAux_succ_some ht, extractAux_succ_some ht]
          have hl := tryFence_length _ _ _ ht
          simp only [List.length_cons] at h1 h2 hl
          congr 1
          exact ih m after (by omega) (by omega)
        | none =>
          rw [extractAux_succ_none ht, extractAux_succ_none ht]
          simp only [List.length_cons] at h1 h2
          exact ih m rest (by omega) (by omega)

theorem extract_no_marker : ∀ (fuel : Nat) (l : List Char),
    hasCloseMarker l = false → extractAux fuel l = [] := by
  intro fuel
  induction fuel with
  | zero => intro l _; rfl
  | succ n ih =>
    intro l h
    cases l with
    | nil => rw [extractAux_nil]
    | cons c rest =>
      unfold hasCloseMarker at h
      rw [Bool.or_eq_false_iff] at h
      obtain ⟨h1, h2⟩ := h
      have hf : tryFence (c :: rest) = none := by
        unfold tryFence
        cases hs : stripCI fenceMarker (c :: rest) with
        | none => rfl
        | some r =>
          exfalso
          have hdecomp : fenceMarker = closeMarker ++ ("sql").data := by decide
          rw [hdecomp] at hs
          obtain ⟨mid, hm, _⟩ := stripCI_split closeMarker (("sql").data) _ _ hs
          rw [hm] at h1
          cases h1
      rw [extractAux_succ_none hf]
      exact ih rest h2

theorem getLastD_irrel {l : List Char} (h : l ≠ []) (d1 d2 : Char) :
    l.getLastD d1 = l.getLastD d2 := by
  cases hx : l.getLast? with
  | none =>
    exact absurd (List.getLast?_eq_none_iff.mp hx) h
  | some x =>
    rw [List.getLastD_eq_getLast?, List.getLastD_eq_getLast?, hx]
    rfl

theorem closeMarker_cons : closeMarker = tickChar :: closeMarker.tail := by decide

theorem findClose_exact (tail : List Char) :
    ∀ content : List Char, fenceFree content = true →
      pyIsSpace (content.getLastD 'x') = false →
      findClose (content ++ '\n' :: (closeMarker ++ tail)) = some (content, tail) := by
  intro content
  induction content with
  | nil =>
    intro _ _
    simp only [List.nil_append]
    have hd : dropWS ('\n' :: (closeMarker ++ tail)) = closeMarker ++ tail := by
      unfold dropWS
      rw [List.dropWhile_cons, if_pos (by decide)]
      rw [closeMarker_cons, List.cons_append, List.dropWhile_cons,
        if_neg (by decide), ← List.cons_append, ← closeMarker_cons]
    unfold findClose
    rw [hd, stripCI_self]
  | cons c rest ih =>
    intro hff hlast
    have hffc : fenceFreeChar c = true := by
      unfold fenceFree at hff
      rw [List.all_cons, Bool.and_eq_true] at hff
      exact hff.1
    have hffr : fenceFree rest = true := by
      unfold fenceFree at hff ⊢
      rw [List.all_cons, Bool.and_eq_true] at hff
      exact hff.2
    by_cases hcs : pyIsSpace c
    · -- leading whitespace inside the payload: the payload continues
      have hrne : rest ≠ [] := by
        intro h0
        subst h0
        simp [List.getLastD, hcs] at hlast
      have hlr : pyIsSpace (rest.getLastD 'x') = false := by
        have h1 : (c :: rest).getLastD 'x' = rest.getLastD c := by
          rw [List.getLastD_cons]
        rw [h1, getLastD_irrel hrne c 'x'] at hlast
        exact hlast
      have hrest := ih hffr hlr
      simp only [List.cons_append]
      unfold findClose
      have hd : dropWS (c :: (rest ++ '\n' :: (closeMarker ++ tail)))
          = dropWS (rest ++ '\n' :: (closeMarker ++ tail)) := by
        unfold dropWS
        rw [List.dropWhile_cons, if_pos hcs]
      rw [hd]
      cases hS : stripCI closeMarker (dropWS (rest ++ '\n' :: (closeMarker ++ tail))) with
      | some aft =>
        exfalso
        obtain ⟨r0, t0, hr0⟩ : ∃ r0 t0, rest = r0 :: t0 := by
          cases rest with
          | nil => exact absurd rfl hrne
          | cons a t => exact ⟨a, t, rfl⟩
        rw [hr0] at hrest hS
        rw [List.cons_append] at hrest hS
        unfold findClose at hrest
        rw [hS] at hrest
        have := (Prod.mk.injEq ..).mp (Option.some.inj hrest)
        cases this.1
      | none =>
        rw [hrest]
        rfl
    · -- non-whitespace head: it is consumed into the payload
      have hrest : findClose (rest ++ '\n' :: (closeMarker ++ tail)) = some (rest, tail) := by
        apply ih hffr
        cases hr0 : rest with
        | nil => decide
        | cons a t =>
          have h1 : (c :: rest).getLastD 'x' = rest.getLastD c := by
            rw [List.getLastD_cons]
          rw [h1, getLastD_irrel (by rw [hr0]; intro hx; cases hx) c 'x'] at hlast
          rw [← hr0]
          exact hlast
      simp only [List.cons_append]
      unfold findClose
      have hd : dropWS (c :: (rest ++ '\n' :: (closeMarker ++ tail)))
          = c :: (rest ++ '\n' :: (closeMarker ++ tail)) := by
        unfold dropWS
        rw [List.dropWhile_cons, if_neg hcs]
      rw [hd, stripCI_close_none c _ hffc, hrest]
      rfl

theorem goodContent_parts {content : List Char} (h : goodContent content = true) :
    content.isEmpty = false ∧ pyIsSpace (content.headD 'x') = false ∧
    pyIsSpace (content.getLastD 'x') = false ∧ fenceFree content = true := by
  unfold goodContent at h
  rw [Bool.and_eq_true, Bool.and_eq_true, Bool.and_eq_true] at h
  obtain ⟨⟨⟨h1, h2⟩, h3⟩, h4⟩ := h
  exact ⟨by simpa using h1, by simpa using h2, by simpa using h3, h4⟩

theorem tryFence_fenceBlock (content tail : List Char) (h : goodContent content = true) :
    tryFence (fenceBlock content ++ tail) = some (content, tail) := by
  obtain ⟨h1, h2, h3, h4⟩ := goodContent_parts h
  obtain ⟨c0, ct, hc0⟩ : ∃ c0 ct, content = c0 :: ct := by
    cases content with
    | nil => simp at h1
    | cons a t => exact ⟨a, t, rfl⟩
  unfold tryFence fenceBlock
  have hs : (fenceMarker ++ '\n' :: (content ++ '\n' :: closeMarker)) ++ tail
      = fenceMarker ++ ('\n' :: (content ++ '\n' :: (closeMarker ++ tail))) := by
    simp [List.append_assoc]
  rw [hs, stripCI_self]
  show findClose (dropWS ('\n' :: (content ++ '\n' :: (closeMarker ++ tail))))
      = some (content, tail)
  have hd : dropWS ('\n' :: (content ++ '\n' :: (closeMarker ++ tail)))
      = content ++ '\n' :: (closeMarker ++ tail) := by
    unfold dropWS
    rw [List.dropWhile_cons, if_pos (by decide)]
    rw [hc0, List.cons_append, List.dropWhile_cons]
    rw [hc0] at h2
    simp only [List.headD_cons] at h2
    rw [if_neg (by simp [h2])]
  rw [hd, findClose_exact tail content h4 h3]

theorem extract_skip_seg : ∀ (seg l : List Char), fenceFree seg = true →
    extractAux (seg ++ l).length (seg ++ l) = extractAux l.length l := by
  intro seg
  induction seg with
  | nil =>
    intro l _
    simp
  | cons c s ih =>
    intro l hff
    unfold fenceFree at hff
    rw [List.all_cons, Bool.and_eq_true] at hff
    have hf : tryFence (c :: (s ++ l)) = none := by
      unfold tryFence
      rw [stripCI_fence_none c _ hff.1]
    simp only [List.cons_append, List.length_cons]
    rw [extractAux_succ_none hf]
    exact ih l hff.2

theorem extract_fence (content tail : List Char) (h : goodContent content = true) :
    extractAux (fenceBlock content ++ tail).length (fenceBlock content ++ tail)
      = content :: extractAux tail.length tail := by
  have ht := tryFence_fenceBlock content tail h
  obtain ⟨x, xs, hx⟩ : ∃ x xs, fenceBlock content ++ tail = x :: xs := by
    cases hfb : fenceBlock content ++ tail with
    | nil =>
      exfalso
      have := congrArg List.length hfb
      simp [fenceBlock] at this
    | cons a b => exact ⟨a, b, rfl⟩
  rw [hx] at ht ⊢
  have hlen := tryFence_length _ _ _ ht
  simp only [List.length_cons] at hlen ⊢
  rw [extractAux_succ_some ht]
  congr 1
  exact extractAux_fuel xs.length tail.length tail (by omega) (le_refl _)

theorem extract_assemble : ∀ (pairs : List (List Char × List Char)) (seg : List Char),
    fenceFree seg = true →
    (∀ p ∈ pairs, goodContent p.1 = true ∧ fenceFree p.2 = true) →
    extractAux (assembleDoc seg pairs).length (assembleDoc seg pairs)
      = pairs.map Prod.fst := by
  intro pairs
  induction pairs with
  | nil =>
    intro seg hs _
    unfold assembleDoc
    have h := extract_skip_seg seg [] hs
    rw [List.append_nil] at h
    rw [h]
    rfl
  | cons p rest ih =>
    intro seg hs hp
    obtain ⟨content, seg'⟩ := p
    unfold assembleDoc
    rw [List.append_assoc]
    rw [extract_skip_seg seg _ hs]
    rw [extract_fence content _ (hp (content, seg') (by simp)).1]
    rw [ih seg' (hp (content, seg') (by simp)).2 (fun q hq => hp q (by simp [hq]))]
    simp

theorem stripChars_good {content : List Char} (h : goodContent content = true) :
    stripChars content = content := by
  obtain ⟨h1, h2, h3, _⟩ := goodContent_parts h
  obtain ⟨c0, ct, hc0⟩ : ∃ c0 ct, content = c0 :: ct := by
    cases content with
    | nil => simp at h1
    | cons a t => exact ⟨a, t, rfl⟩
  subst hc0
  unfold stripChars
  simp only [List.headD_cons] at h2
  rw [List.dropWhile_cons, if_neg (by simp [h2])]
  cases hr : (c0 :: ct).reverse with
  | nil =>
    exfalso
    have := congrArg List.length hr
    simp at this
  | cons y ys =>
    have hy : (c0 :: ct).getLast? = some y := by
      rw [← List.head?_reverse, hr]
      rfl
    have hyw : pyIsSpace y = false := by
      rw [List.getLastD_eq_getLast?, hy] at h3
      exact h3
    have hback : (y :: ys).reverse = c0 :: ct := by
      rw [← hr, List.reverse_reverse]
    rw [List.dropWhile_cons, if_neg (by simp [hyw]), hback]

/-- C4: the action extractor applied to text containing zero fences (no
occurrence of the fence marker at all) returns the empty list rather than an
error; and applied to a document assembled from N well-formed fenced action
blocks separated by fence-free text it returns exactly the N payloads, in
source order, whitespace-trimmed (the payloads here are already trimmed and
non-empty, and empty payloads are discarded by construction of the
extractor).  The opening marker is matched case-insensitively by
`stripCI`. -/
theorem c4_action_extraction :
    (∀ text : String, hasCloseMarker text.data = false → extractSqlQueries text = []) ∧
    (∀ (seg : List Char) (pairs : List (List Char × List Char)),
      fenceFree seg = true →
      (∀ p ∈ pairs, goodContent p.1 = true ∧ fenceFree p.2 = true) →
      extractSqlQueries (assembleDoc seg pairs).asString
        = pairs.map (fun p => p.1.asString)) := by
  constructor
  · intro text h
    unfold extractSqlQueries
    rw [extract_no_marker _ _ h]
    rfl
  · intro seg pairs hs hp
    unfold extractSqlQueries
    have hdata : (assembleDoc seg pairs).asString.data = assembleDoc seg pairs := rfl
    rw [hdata, extract_assemble pairs seg hs hp]
    have main : ∀ (ps : List (List Char × List Char)),
        (∀ p ∈ ps, goodContent p.1 = true) →
        (((ps.map Prod.fst).map stripChars).filter (fun c => !c.isEmpty)).map List.asString
          = ps.map (fun p => p.1.asString) := by
      intro ps hp'
      induction ps with
      | nil => rfl
      | cons q qs ihq =>
        have hq := hp' q (by simp)
        obtain ⟨hq1, _, _, _⟩ := goodContent_parts hq
        simp only [List.map_cons, stripChars_good hq, List.filter_cons]
        rw [if_pos (by simp [hq1])]
        simp only [List.map_cons]
        rw [ihq (fun p hp2 => hp' p (by simp [hp2]))]
    exact main pairs (fun p hp2 => (hp p hp2).1)

/-- Witness for C4: a fence-free text extracts to nothing, and a document
with one well-formed fenced block extracts exactly its payload. -/
theorem c4_action_extraction_witness :
    extractSqlQueries "no fences here" = [] ∧
    extractSqlQueries (assembleDoc ("Answer: ").data
        [(("SELECT 1;").data, (" done").data)]).asString
      = [(("SELECT 1;").data).asString] :=
  ⟨c4_action_extraction.1 "no fences here" (by decide),
   c4_action_extraction.2 ("Answer: ").data [(("SELECT 1;").data, (" done").data)]
     (by decide) (by decide)⟩
